import Mathlib

/-!
Verification of the Draft geometry face utilities
(`src/Mod/Draft/draftgeoutils/faces.py`).

The module under verification orchestrates calls into an external B-rep
geometry kernel.  Following the module's own data model, the kernel's
object types are embedded shallowly:

* an `Edge` is identified by its kernel hash code (`hashCode()`);
* a `Face` carries its hash code, its edge list (`Face.Edges`), its
  vertex list (`Face.Vertexes`), the normals the module evaluates
  (`normalAt(0, 0)` and `normalAt(0.5, 0.5)`) and its `isValid()` flag;
* a `Wire` carries its edge list, vertex list, `isClosed()` flag and the
  bounding-box diagonal length `BoundBox.DiagonalLength`;
* a `Shape` carries its face list (`Shape.Faces`), its whole-shape edge
  list (`Shape.Edges`, which enumerates each shared edge once) and its
  `isClosed()` flag.

Floating-point coordinates are idealised as exact rationals; the module
only ever compares them (exact equality of normals, `>` on diagonal
lengths, a rounded distance against a tolerance).

The kernel's fallible constructors (`Part.Wire`, `Part.Face`,
`Part.LineSegment(...).toShape()`, `Part.makeShell`, `Part.makeSolid`,
`Part.__sortEdges__`) are an opaque collaborator: they are modelled as a
`Kernel` record of functions, with `none` standing for a raised
`Part.OCCError`.  Python exceptions that the module itself can raise or
propagate are modelled by the error type `PErr` in an `Except` monad.
-/

set_option autoImplicit false

namespace DraftFaces

/-- A 3-dimensional vector with exact rational coordinates
(idealisation of the kernel's `Vector`). -/
structure Vec3 where
  x : ℚ
  y : ℚ
  z : ℚ
deriving DecidableEq

/-- `a.sub b`: the kernel's `Vector.sub`. -/
def Vec3.sub (a b : Vec3) : Vec3 := ⟨a.x - b.x, a.y - b.y, a.z - b.z⟩

/-- Dot product (the kernel's `Vector.dot`). -/
def Vec3.dot (a b : Vec3) : ℚ := a.x * b.x + a.y * b.y + a.z * b.z

/-- Vector negation (effect of reversing a face's orientation on its normal). -/
def Vec3.neg (a : Vec3) : Vec3 := ⟨-a.x, -a.y, -a.z⟩

/-- A kernel `Vertex`; the module only ever reads its `.Point`. -/
structure Vertex where
  point : Vec3
deriving DecidableEq

/-- A kernel `Edge`, identified by its `hashCode()` as the module does. -/
structure Edge where
  hc : Nat
deriving DecidableEq

/-- A kernel `Face`: hash code, edge list, vertex list, the two normals
the module evaluates, and the `isValid()` flag. -/
structure Face where
  hc : Nat
  edges : List Edge
  vertexes : List Vertex
  normal00 : Vec3
  normal05 : Vec3
  valid : Bool
deriving DecidableEq

/-- `Face.reverse()`: flips the orientation, which negates the normals. -/
def Face.reverseFace (f : Face) : Face :=
  { f with normal00 := f.normal00.neg, normal05 := f.normal05.neg }

/-- A kernel `Wire`: edge list, vertex list, `isClosed()`, and
`BoundBox.DiagonalLength`. -/
structure Wire where
  edges : List Edge
  vertexes : List Vertex
  closed : Bool
  diag : ℚ
deriving DecidableEq

/-- A kernel `Shape`: face list, whole-shape edge list, `isClosed()`. -/
structure Shape where
  faces : List Face
  edges : List Edge
  closed : Bool
deriving DecidableEq

/-- Python exceptions the module can raise or propagate:
`Part.OCCError`, `IndexError`, `KeyError`, `AttributeError`/`TypeError`
(from calling a method on the `None` returned by a failed `find`), and a
marker for exhaustion of the fuel that drives the clustering loop of
`cleanFaces` (proved unreachable: see `islLoop_no_fuel_error`). -/
inductive PErr where
  | occ
  | index
  | key
  | attr
  | fuel
deriving DecidableEq

/-- The opaque geometry-kernel collaborator.  Each constructor returns
`none` where the real kernel would raise `Part.OCCError`. -/
structure Kernel where
  sortEdges : List Edge → List Edge
  mkWire : List Edge → Option Wire
  mkFace : Wire → Option Face
  mkFaceWires : Wire → Wire → Option Face
  mkLineSegment : Vec3 → Vec3 → Option Edge
  makeShell : List Face → Option Shape
  makeSolid : Shape → Option Shape

/-- Lift a kernel constructor result into the exception monad: `none`
is a raised `Part.OCCError`. -/
def ofOcc {α : Type} : Option α → Except PErr α
  | none => Except.error PErr.occ
  | some a => Except.ok a

/-- Input of `getBoundary`: "a Shape or list of Faces"
(the Python function dispatches on `isinstance(shape, list)`). -/
inductive FaceGroup where
  | ofShape (s : Shape)
  | ofList (fs : List Face)

/-- `Part.makeCompound` on a list of faces.  Modelled from the spec's
collaborator contract: the compound's face list is the given list, and
its whole-shape edge list enumerates each edge once (deduplicated by
hash code, in discovery order). -/
def makeCompound (fs : List Face) : Shape :=
  { faces := fs
    edges := (fs.flatMap Face.edges).foldl
      (fun acc e => if acc.any (fun d => d.hc = e.hc) then acc else acc ++ [e]) []
    closed := false }

/-- One step of building the counting adjacency table of `getBoundary`:
bump the count for edge-hash `k` (first occurrence inserts count 1). -/
def countInsert (t : List (Nat × Nat)) (k : Nat) : List (Nat × Nat) :=
  if t.any (fun p => p.1 = k) then
    t.map (fun p => if p.1 = k then (p.1, p.2 + 1) else p)
  else t ++ [(k, 1)]

/-- The counting table of `getBoundary`: for each face, for each edge,
count occurrences of its hash code (Python's `table` dict). -/
def buildCountTable (faces : List Face) : List (Nat × Nat) :=
  faces.foldl (fun t f => f.edges.foldl (fun t e => countInsert t e.hc) t) []

/-- Dictionary lookup in an association table. -/
def tableGet (t : List (Nat × Nat)) (k : Nat) : Option Nat :=
  (t.find? (fun p => p.1 = k)).map (fun p => p.2)

/-- The shape a face group denotes: a list input is first combined with
`Part.makeCompound` (`if isinstance(shape, list)`). -/
def groupShape : FaceGroup → Shape
  | FaceGroup.ofShape s => s
  | FaceGroup.ofList fs => makeCompound fs

/-- One step of `getBoundary`'s filtering loop: keep the edge when its
table count is 1; a missing table key (an edge of `shape.Edges` owned by
no face) is Python's `KeyError`. -/
def boundStep (table : List (Nat × Nat)) (acc : List Edge) (e : Edge) :
    Except PErr (List Edge) :=
  match tableGet table e.hc with
  | none => Except.error PErr.key
  | some n => Except.ok (if n = 1 then acc ++ [e] else acc)

/-- `getBoundary(shape)`: return the boundary edges of a group of faces.
Every edge of the whole-shape edge list whose per-face occurrence count
is exactly 1 is kept, in order. -/
def getBoundary (g : FaceGroup) : Except PErr (List Edge) :=
  let shape := groupShape g
  let table := buildCountTable shape.faces
  shape.edges.foldlM (boundStep table) []

/-- A single kernel `Face` viewed as a `Shape` argument: its `.Faces`
list is itself and its `.Edges` list is its own (kernel-deduplicated)
edge list. -/
def Face.asShape (f : Face) : Shape :=
  { faces := [f], edges := f.edges, closed := false }

/-- Modelled from the spec: the shared decimal-precision constant of the
geometry-utility suite (`draftgeoutils.general.precision`, not under
`src/`); its default value is 6 decimal places. -/
def precision : Nat := 6

/-- Floor of the square root of a nonnegative rational. -/
def ratFloorSqrt (q : ℚ) : Nat := Nat.sqrt (Int.toNat ⌊q⌋)

/-- Python's banker's rounding of `sqrt S` to the nearest integer
(ties to even), for rational `S ≥ 0`; floats idealised as exact. -/
def halfEvenSqrtRound (S : ℚ) : Nat :=
  let k := ratFloorSqrt S
  let half : ℚ := (k : ℚ) + 1 / 2
  if S < half ^ 2 then k
  else if half ^ 2 < S then k + 1
  else if k % 2 = 0 then k else k + 1

/-- Squared length of `DraftVecUtils.project(chord, base)`.  Modelled
from the spec: `project` (not under `src/`) projects `chord` onto
`base`, giving length `|chord·base| / sqrt (base·base)` (zero when
`base` is the null vector). -/
def projLen2 (chord base : Vec3) : ℚ :=
  if base.dot base = 0 then 0 else (chord.dot base) ^ 2 / base.dot base

/-- `round(dist.Length, precision())` where `dist.Length = sqrt L2`:
Python's banker's rounding to `precision` decimal places. -/
def roundDist (L2 : ℚ) : ℚ :=
  (halfEvenSqrtRound (L2 * (100 : ℚ) ^ precision) : ℚ) / (10 : ℚ) ^ precision

/-- The per-vertex violation test of `isCoplanar`:
`round(DraftVecUtils.project(chord, base).Length, precision()) > tolerance`. -/
def deviates (tol : ℚ) (base chord : Vec3) : Bool :=
  roundDist (projLen2 chord base) > tol

/-- Inner loop of `isCoplanar`: scan the vertexes of one face; each
iteration re-reads `faces[0].Vertexes[0]` (an `IndexError` if the first
face has no vertexes), short-circuiting on the first violation. -/
def coplanarVerts (f0 : Face) (tol : ℚ) : List Vertex → Except PErr Bool
  | [] => Except.ok true
  | v :: vs =>
    match f0.vertexes.head? with
    | none => Except.error PErr.index
    | some v0 =>
      if deviates tol f0.normal00 (v.point.sub v0.point) then Except.ok false
      else coplanarVerts f0 tol vs

/-- Outer loop of `isCoplanar`: scan `faces[1:]`, short-circuiting on
the first face containing a violating vertex. -/
def coplanarScan (f0 : Face) (tol : ℚ) : List Face → Except PErr Bool
  | [] => Except.ok true
  | f :: rest =>
    match coplanarVerts f0 tol f.vertexes with
    | Except.error e => Except.error e
    | Except.ok false => Except.ok false
    | Except.ok true => coplanarScan f0 tol rest

/-- `isCoplanar(faces, tolerance=0)`: trivially `True` for fewer than
two faces; otherwise compare every vertex of every later face against
the plane through `faces[0].Vertexes[0]` with normal
`faces[0].normalAt(0, 0)`. -/
def isCoplanar (faces : List Face) (tolerance : ℚ := 0) : Except PErr Bool :=
  if faces.length < 2 then Except.ok true
  else
    match faces with
    | [] => Except.ok true
    | f0 :: rest => coplanarScan f0 tolerance rest

/-- The diagnostic `bind` prints on failure. -/
def bindMsg : String := "DraftGeomUtils: unable to bind wires"

/-- Kernel face construction in the closed-closed branch of `bind`:
`Part.Face([outer, inner])` stands outside any `try`, so a kernel
failure propagates as `Part.OCCError`. -/
def occFace : Option Face → Except PErr (Option Face)
  | none => Except.error PErr.occ
  | some f => Except.ok (some f)

/-- The open-wire branch of `bind`: bridge the two wires' first and last
vertexes with line segments and build a face from the combined wire.
The `try` catches only `Part.OCCError` (modelled by `none` from the
kernel constructors) — indexing an empty vertex list is an uncaught
`IndexError`. -/
def bindOpen (K : Kernel) (u1 u2 : Wire) : Except PErr (Option Face) × List String :=
  match u1.vertexes.head? with
  | none => (Except.error PErr.index, [])
  | some a1 =>
    match u2.vertexes.head? with
    | none => (Except.error PErr.index, [])
    | some a2 =>
      match K.mkLineSegment a1.point a2.point with
      | none => (Except.ok none, [bindMsg])
      | some w3 =>
        match u1.vertexes.getLast? with
        | none => (Except.error PErr.index, [])
        | some b1 =>
          match u2.vertexes.getLast? with
          | none => (Except.error PErr.index, [])
          | some b2 =>
            match K.mkLineSegment b1.point b2.point with
            | none => (Except.ok none, [bindMsg])
            | some w4 =>
              match K.mkWire (u1.edges ++ [w3] ++ u2.edges ++ [w4]) with
              | none => (Except.ok none, [bindMsg])
              | some w =>
                match K.mkFace w with
                | none => (Except.ok none, [bindMsg])
                | some f => (Except.ok (some f), [])

/-- `bind(w1, w2)`: bind two wires by their endpoints into a face.  A
null/falsy wire gives an immediate `None` with a diagnostic; two closed
wires give `Part.Face([larger, smaller])` by bounding-box diagonal (not
guarded by any `try`); otherwise the bridging branch runs under a
`try/except Part.OCCError`.  The second component is the list of printed
diagnostics. -/
def bind (K : Kernel) (w1 w2 : Option Wire) : Except PErr (Option Face) × List String :=
  match w1, w2 with
  | none, _ => (Except.ok none, [bindMsg])
  | some _, none => (Except.ok none, [bindMsg])
  | some u1, some u2 =>
    if u1.closed && u2.closed then
      if u1.diag > u2.diag then (occFace (K.mkFaceWires u1 u2), [])
      else (occFace (K.mkFaceWires u2 u1), [])
    else bindOpen K u1 u2

/-- The diagnostic `concatenate` prints on failure. -/
def concatMsg : String := "DraftGeomUtils: Couldn't join faces into one"

/-- Result of `concatenate`: a `Face`, a `Wire`, or the original shape. -/
inductive CResult where
  | face (f : Face)
  | wire (w : Wire)
  | shape (s : Shape)
deriving DecidableEq

/-- `concatenate(shape)`: turn several faces into one.  The boundary is
extracted (errors there propagate), its edges sorted by the kernel, and
`Part.Wire`/`Part.Face` run under `try/except Part.OCCError`: on kernel
failure the original shape is returned with a diagnostic; on success the
face is returned if the wire is closed, else the bare wire. -/
def concatenate (K : Kernel) (shape : Shape) : Except PErr (CResult × List String) :=
  match getBoundary (FaceGroup.ofShape shape) with
  | Except.error e => Except.error e
  | Except.ok bounds =>
    let edges := K.sortEdges bounds
    match K.mkWire edges with
    | none => Except.ok (CResult.shape shape, [concatMsg])
    | some w =>
      match K.mkFace w with
      | none => Except.ok (CResult.shape shape, [concatMsg])
      | some f =>
        if !w.closed then Except.ok (CResult.wire w, [])
        else Except.ok (CResult.face f, [])

/-- The local `find(hc)` helper of `cleanFaces`: the first face of the
face set with the given hash code (Python's implicit `None` when absent
is `none` here). -/
def findFace (faceset : List Face) (hc : Nat) : Option Face :=
  faceset.find? (fun f => f.hc = hc)

/-- One insertion into the edge → owning-face-hash lookup table of
`cleanFaces`: append the face hash to the entry of edge-hash `k`,
creating the entry on first occurrence (Python dict, insertion order). -/
def lutInsert (lut : List (Nat × List Nat)) (k v : Nat) : List (Nat × List Nat) :=
  if lut.any (fun p => p.1 = k) then
    lut.map (fun p => if p.1 = k then (p.1, p.2 ++ [v]) else p)
  else lut ++ [(k, [v])]

/-- The lookup table of `cleanFaces`: for each face, for each edge,
record the face's hash code under the edge's hash code. -/
def buildLut (faceset : List Face) : List (Nat × List Nat) :=
  faceset.foldl (fun lut f => f.edges.foldl (fun lut e => lutInsert lut e.hc f.hc) lut) []

/-- Dictionary lookup `lut[k]`.  Python raises `KeyError` on a missing
key; every key this module looks up was produced from the table itself,
so the miss branch is unreachable and is given the default `[]`. -/
def lutGet (lut : List (Nat × List Nat)) (k : Nat) : List Nat :=
  ((lut.find? (fun p => p.1 = k)).map (fun p => p.2)).getD []

/-- The shared edges of `cleanFaces`: keys of the lookup table whose
owner list has exactly two entries, in table (insertion) order. -/
def sharedHEdges (lut : List (Nat × List Nat)) : List Nat :=
  (lut.filter (fun p => p.2.length = 2)).map (fun p => p.1)

/-- The per-edge test of `cleanFaces`' coplanar filter:
`find(faces[0]).normalAt(0.5, 0.5) == find(faces[1]).normalAt(0.5, 0.5)`
— an exact comparison.  (`find` cannot miss here: the owner hashes come
from the face set; Python would raise on the impossible branches, which
are rendered as `false`.) -/
def targetPred (faceset : List Face) (lut : List (Nat × List Nat)) (he : Nat) : Bool :=
  match lutGet lut he with
  | [a, b] =>
    match findFace faceset a, findFace faceset b with
    | some fa, some fb => fa.normal05 = fb.normal05
    | _, _ => false
  | _ => false

/-- The target edges of `cleanFaces`: shared edges whose two owning
faces have equal normals at the parametric midpoint `(0.5, 0.5)`. -/
def targetHEdges (faceset : List Face) (lut : List (Nat × List Nat)) : List Nat :=
  (sharedHEdges lut).filter (targetPred faceset lut)

/-- The target faces of `cleanFaces`: the owners of the target edges,
first occurrence order, without duplicates (Python's
`if f not in hfaces`). -/
def targetHFaces (lut : List (Nat × List Nat)) (target : List Nat) : List Nat :=
  target.foldl
    (fun hfaces he =>
      (lutGet lut he).foldl (fun hfaces f => if f ∈ hfaces then hfaces else hfaces ++ [f]) hfaces)
    []

/-- `findNeighbour(hface, hfacelist)`: index of the first face of the
list sharing an edge hash code with `find(hface)`.  A `find` miss makes
Python call `.Edges` on `None` (`AttributeError`), modelled as
`PErr.attr`. -/
def findNeighbourAux (faceset : List Face) (eset : List Nat) :
    List Nat → Nat → Except PErr (Option Nat)
  | [], _ => Except.ok none
  | hf :: rest, i =>
    match findFace faceset hf with
    | none => Except.error PErr.attr
    | some g =>
      if g.edges.any (fun e => e.hc ∈ eset) then Except.ok (some i)
      else findNeighbourAux faceset eset rest (i + 1)

/-- `findNeighbour` proper: build `eset` from `find(hface).Edges`, then
scan the list. -/
def findNeighbour (faceset : List Face) (hface : Nat) (hfacelist : List Nat) :
    Except PErr (Option Nat) :=
  match findFace faceset hface with
  | none => Except.error PErr.attr
  | some f => findNeighbourAux faceset (f.edges.map Edge.hc) hfacelist 0

/-- State of the island-sorting `while` loop of `cleanFaces`.  In the
source, `currentisle` always indexes the last entry of `islands`, so the
state splits `islands` into the finished islands `prev` and the current
island `cur`. -/
structure IslState where
  prev : List (List Nat)
  cur : List Nat
  curface : Nat
  found : Bool
  hfaces : List Nat
deriving DecidableEq

/-- Termination measure for the island-sorting loop: every iteration of
the Python `while` strictly decreases it. -/
def islMeasure (st : IslState) : Nat :=
  4 * st.hfaces.length + 2 * (st.cur.length - st.curface) + (if st.found then 1 else 0)

/-- The island-sorting `while hfaces:` loop of `cleanFaces`, unfolded on
an explicit fuel argument (initialised with `islMeasure`, which is
proved sufficient: the `PErr.fuel` branch is unreachable).  Out-of-range
list indexing (`islands[currentisle][currentface]`, `hfaces.pop(...)`)
is Python's `IndexError`. -/
def islLoop (faceset : List Face) : Nat → IslState → Except PErr (List (List Nat))
  | 0, st =>
    if st.hfaces.isEmpty then Except.ok (st.prev ++ [st.cur])
    else Except.error PErr.fuel
  | fuel + 1, st =>
    if st.hfaces.isEmpty then Except.ok (st.prev ++ [st.cur])
    else
        if st.found then
          match st.cur[st.curface]? with
          | none => Except.error PErr.index
          | some hf =>
            match findNeighbour faceset hf st.hfaces with
            | Except.error e => Except.error e
            | Except.ok (some i) =>
              match st.hfaces[i]? with
              | none => Except.error PErr.index
              | some x =>
                islLoop faceset fuel
                  { st with cur := st.cur ++ [x], hfaces := st.hfaces.eraseIdx i }
            | Except.ok none => islLoop faceset fuel { st with found := false }
        else
          if st.cur.length > st.curface + 1 then
            islLoop faceset fuel { st with curface := st.curface + 1, found := true }
          else
            match st.hfaces with
            | [] => Except.error PErr.index
            | h :: t =>
              islLoop faceset fuel
                { prev := st.prev ++ [st.cur], cur := [h], curface := 0,
                  found := true, hfaces := t }

/-- Sort the target faces into islands: `islands = [[hfaces.pop(0)]]`
(an `IndexError` on an empty worklist), then the `while` loop with
`found = True`. -/
def sortIslands (faceset : List Face) (hfaces : List Nat) : Except PErr (List (List Nat)) :=
  match hfaces with
  | [] => Except.error PErr.index
  | h :: t =>
    let st : IslState := ⟨[], [h], 0, true, t⟩
    islLoop faceset (islMeasure st) st

/-- Per-island reconstruction of `cleanFaces`: resolve the island's face
hashes (a miss would make Python pass `None` into `Part.makeCompound`,
an uncaught error, modelled `PErr.attr`), extract the boundary, sort,
build wire and face (uncaught `Part.OCCError` on failure), and reverse
the new face if its normal disagrees with the island's first face. -/
def mergeIsland (K : Kernel) (faceset : List Face) (isle : List Nat) : Except PErr Face := do
  let fset ← isle.mapM (fun i =>
    match findFace faceset i with
    | none => Except.error PErr.attr
    | some f => Except.ok f)
  let bounds ← getBoundary (FaceGroup.ofList fset)
  let w ← ofOcc (K.mkWire (K.sortEdges bounds))
  let f ← ofOcc (K.mkFace w)
  match isle with
  | [] => Except.error PErr.index
  | i0 :: _ =>
    match findFace faceset i0 with
    | none => Except.error PErr.attr
    | some f0 =>
      if f.normal05 ≠ f0.normal05 then Except.ok f.reverseFace else Except.ok f

/-- `cleanFaces(shape)`: remove inner edges from coplanar faces.  Build
the lookup table, select target edges and faces, sort islands, merge
each island into one face, append the untreated faces, and assemble a
shell (and a solid if the input shape was closed).  No kernel failure is
caught here: all errors propagate. -/
def cleanFaces (K : Kernel) (shape : Shape) : Except PErr Shape := do
  let faceset := shape.faces
  let lut := buildLut faceset
  let target := targetHEdges faceset lut
  let hfaces := targetHFaces lut target
  let islands ← sortIslands faceset hfaces
  let newfaces ← islands.mapM (mergeIsland K faceset)
  let treated := islands.flatMap id
  let allfaces := newfaces ++ faceset.filter (fun f => f.hc ∉ treated)
  let fshape ← ofOcc (K.makeShell allfaces)
  if shape.closed then ofOcc (K.makeSolid fshape) else pure fshape

/-- One insertion into the edge-object lookup table of `removeSplitter`:
append the edge itself (not a face hash) under its hash code. -/
def elutInsert (t : List (Nat × List Edge)) (e : Edge) : List (Nat × List Edge) :=
  if t.any (fun p => p.1 = e.hc) then
    t.map (fun p => if p.1 = e.hc then (p.1, p.2 ++ [e]) else p)
  else t ++ [(e.hc, [e])]

/-- The lookup table of `removeSplitter`: edge hash code → list of the
edge occurrences over all faces. -/
def buildEdgeLut (faces : List Face) : List (Nat × List Edge) :=
  faces.foldl (fun t f => f.edges.foldl elutInsert t) []

/-- `edges = [e[0] for e in lookup.values() if len(e) == 1]`. -/
def singleOwnerEdges (shape : Shape) : List Edge :=
  (buildEdgeLut shape.faces).filterMap (fun p =>
    match p.2 with
    | [e] => some e
    | _ => none)

/-- `removeSplitter(shape)`: build a wire then a face from the edges
with a single owner; `try/except Part.OCCError` turns construction
failure into `None`; a constructed face is returned only if `isValid()`,
otherwise `None`. -/
def removeSplitter (K : Kernel) (shape : Shape) : Option Face :=
  let edges := singleOwnerEdges shape
  match K.mkWire edges with
  | none => none
  | some w =>
    match K.mkFace w with
    | none => none
    | some face => if face.valid then some face else none

/-! ### Concrete sample data

A concrete kernel instance and concrete shapes, used to instantiate the
theorems below on explicit inputs. -/

/-- The unit normal `(0, 0, 1)`. -/
def nZ : Vec3 := ⟨0, 0, 1⟩

/-- First sample face: a square with edge hash codes 1–4, normal `nZ`. -/
def f1 : Face :=
  { hc := 101, edges := [⟨1⟩, ⟨2⟩, ⟨3⟩, ⟨4⟩], vertexes := []
    normal00 := nZ, normal05 := nZ, valid := true }

/-- Second sample face: a square with edge hash codes 3, 5, 6, 7 (edge 3
shared with `f1`), normal `nZ`. -/
def f2 : Face :=
  { hc := 102, edges := [⟨3⟩, ⟨5⟩, ⟨6⟩, ⟨7⟩], vertexes := []
    normal00 := nZ, normal05 := nZ, valid := true }

/-- Sample shape: two coplanar squares sharing edge 3. -/
def sampleS : Shape :=
  { faces := [f1, f2], edges := [⟨1⟩, ⟨2⟩, ⟨3⟩, ⟨4⟩, ⟨5⟩, ⟨6⟩, ⟨7⟩], closed := false }

/-- A single-face shape (no shared edges at all). -/
def singleS : Shape := { faces := [f1], edges := f1.edges, closed := false }

/-- A sample kernel on which every construction succeeds: wires keep
their edges, faces keep their wire's edges and get hash code 999 and
normal `nZ`, shells keep their faces. -/
def sampleK : Kernel :=
  { sortEdges := id
    mkWire := fun es => some { edges := es, vertexes := [], closed := true, diag := 1 }
    mkFace := fun w => some
      { hc := 999, edges := w.edges, vertexes := w.vertexes
        normal00 := nZ, normal05 := nZ, valid := true }
    mkFaceWires := fun a b => some
      { hc := (a.edges.headD ⟨0⟩).hc, edges := a.edges ++ b.edges, vertexes := []
        normal00 := nZ, normal05 := nZ, valid := true }
    mkLineSegment := fun _ _ => some ⟨77⟩
    makeShell := fun fs => some
      { faces := fs
        edges := (fs.flatMap Face.edges).foldl
          (fun acc e => if acc.any (fun d => d.hc = e.hc) then acc else acc ++ [e]) []
        closed := false }
    makeSolid := fun s => some { s with closed := true } }

/-- A kernel on which every construction raises `Part.OCCError`. -/
def failK : Kernel :=
  { sortEdges := id
    mkWire := fun _ => none
    mkFace := fun _ => none
    mkFaceWires := fun _ _ => none
    mkLineSegment := fun _ _ => none
    makeShell := fun _ => none
    makeSolid := fun _ => none }

/-- The output `cleanFaces sampleK sampleS` produces: one merged face
(hash 999) whose edges are the boundary of the two squares. -/
def sampleMergedFace : Face :=
  { hc := 999, edges := [⟨1⟩, ⟨2⟩, ⟨4⟩, ⟨5⟩, ⟨6⟩, ⟨7⟩], vertexes := []
    normal00 := nZ, normal05 := nZ, valid := true }

/-- The shell `cleanFaces sampleK sampleS` returns. -/
def sampleMerged : Shape :=
  { faces := [sampleMergedFace]
    edges := [⟨1⟩, ⟨2⟩, ⟨4⟩, ⟨5⟩, ⟨6⟩, ⟨7⟩], closed := false }

/-! ### C2: `cleanFaces` on a shape with no target edges -/

/-- Shared helper: when the target-edge list is empty, the target-face
worklist is empty and `islands = [[hfaces.pop(0)]]` raises `IndexError`. -/
lemma cleanFaces_no_target (K : Kernel) (shape : Shape)
    (h : targetHEdges shape.faces (buildLut shape.faces) = []) :
    cleanFaces K shape = Except.error PErr.index := by
  simp only [cleanFaces, h, targetHFaces, List.foldl_nil, sortIslands]
  rfl

/-- C2: for every input shape whose target-edge set is empty (hence so
is its target-face set), `cleanFaces` raises `IndexError` by popping
from the empty target-face list, and in particular never returns a
shell of the unchanged faces. -/
theorem cleanFaces_empty_target_index_error (K : Kernel) (shape : Shape)
    (h : targetHEdges shape.faces (buildLut shape.faces) = []) :
    targetHFaces (buildLut shape.faces) (targetHEdges shape.faces (buildLut shape.faces)) = [] ∧
      cleanFaces K shape = Except.error PErr.index ∧
      ∀ s' : Shape, cleanFaces K shape ≠ Except.ok s' := by
  refine ⟨by rw [h]; rfl, cleanFaces_no_target K shape h, ?_⟩
  intro s' hs'
  rw [cleanFaces_no_target K shape h] at hs'
  exact Except.noConfusion hs'

/-- Witness for C2 at the single-face shape: the hypothesis holds and
the conclusion follows by the theorem. -/
theorem cleanFaces_empty_target_index_error_witness :
    targetHEdges singleS.faces (buildLut singleS.faces) = [] ∧
      cleanFaces sampleK singleS = Except.error PErr.index :=
  ⟨rfl, (cleanFaces_empty_target_index_error sampleK singleS rfl).2.1⟩

/-! ### C7: `concatenate` degrades gracefully -/

/-- C7: when the kernel's wire or face construction fails,
`concatenate` returns the original shape unchanged together with the
diagnostic; when both succeed it returns the face if the wire is closed
and the bare wire otherwise. -/
theorem concatenate_spec (K : Kernel) (shape : Shape) (bounds : List Edge)
    (hb : getBoundary (FaceGroup.ofShape shape) = Except.ok bounds) :
    (K.mkWire (K.sortEdges bounds) = none →
      concatenate K shape = Except.ok (CResult.shape shape, [concatMsg])) ∧
    (∀ w, K.mkWire (K.sortEdges bounds) = some w → K.mkFace w = none →
      concatenate K shape = Except.ok (CResult.shape shape, [concatMsg])) ∧
    (∀ w f, K.mkWire (K.sortEdges bounds) = some w → K.mkFace w = some f →
      concatenate K shape =
        Except.ok (if w.closed then (CResult.face f, []) else (CResult.wire w, []))) := by
  refine ⟨?_, ?_, ?_⟩
  · intro h
    simp only [concatenate, hb, h]
  · intro w h1 h2
    simp only [concatenate, hb, h1, h2]
  · intro w f h1 h2
    simp only [concatenate, hb, h1, h2]
    cases hw : w.closed <;> simp [hw]

/-- Witness for C7: on the failing kernel the two-square shape comes
back unchanged with the diagnostic; on the sample kernel the closed
wire's face is returned. -/
theorem concatenate_spec_witness :
    concatenate failK sampleS = Except.ok (CResult.shape sampleS, [concatMsg]) ∧
      concatenate sampleK sampleS = Except.ok (CResult.face sampleMergedFace, []) := by
  constructor
  · exact (concatenate_spec failK sampleS [⟨1⟩, ⟨2⟩, ⟨4⟩, ⟨5⟩, ⟨6⟩, ⟨7⟩] rfl).1 rfl
  · exact (concatenate_spec sampleK sampleS [⟨1⟩, ⟨2⟩, ⟨4⟩, ⟨5⟩, ⟨6⟩, ⟨7⟩] rfl).2.2
      { edges := [⟨1⟩, ⟨2⟩, ⟨4⟩, ⟨5⟩, ⟨6⟩, ⟨7⟩], vertexes := [], closed := true, diag := 1 }
      sampleMergedFace rfl rfl

/-! ### C8: `removeSplitter` never raises -/

/-- C8: `removeSplitter` (a total function: both kernel constructions
run under `try/except Part.OCCError`) returns `none` whenever wire or
face construction fails; when construction succeeds, it returns the face
exactly when `isValid()` holds, and any returned face is valid. -/
theorem removeSplitter_spec (K : Kernel) (shape : Shape) :
    (K.mkWire (singleOwnerEdges shape) = none → removeSplitter K shape = none) ∧
    (∀ w, K.mkWire (singleOwnerEdges shape) = some w → K.mkFace w = none →
      removeSplitter K shape = none) ∧
    (∀ w f, K.mkWire (singleOwnerEdges shape) = some w → K.mkFace w = some f →
      removeSplitter K shape = (if f.valid then some f else none)) ∧
    (∀ f, removeSplitter K shape = some f → f.valid = true) := by
  refine ⟨?_, ?_, ?_, ?_⟩
  · intro h
    simp only [removeSplitter, h]
  · intro w h1 h2
    simp only [removeSplitter, h1, h2]
  · intro w f h1 h2
    simp only [removeSplitter, h1, h2]
  · intro f h
    simp only [removeSplitter] at h
    cases hw : K.mkWire (singleOwnerEdges shape) with
    | none => simp [hw] at h
    | some w =>
      cases hf : K.mkFace w with
      | none => simp [hw, hf] at h
      | some face =>
        simp only [hw, hf] at h
        by_cases hv : face.valid
        · rw [if_pos hv] at h
          cases h
          exact hv
        · rw [if_neg hv] at h
          exact Option.noConfusion h

/-- Witness for C8: failure gives `none`, success on the sample shape
gives the (valid) merged boundary face. -/
theorem removeSplitter_spec_witness :
    removeSplitter failK sampleS = none ∧
      removeSplitter sampleK sampleS = some sampleMergedFace := by
  constructor
  · exact (removeSplitter_spec failK sampleS).1 rfl
  · exact (removeSplitter_spec sampleK sampleS).2.2.1
      { edges := [⟨1⟩, ⟨2⟩, ⟨4⟩, ⟨5⟩, ⟨6⟩, ⟨7⟩], vertexes := [], closed := true, diag := 1 }
      sampleMergedFace rfl rfl

/-! ### C3: `bind` failure policy (corrected) -/

/-- Helper for C3: in the open-wire branch, when both wires have at
least one vertex, `bind` never propagates an exception: every kernel
failure is caught, giving `None` plus the diagnostic, and otherwise a
face is returned. -/
lemma bindOpen_no_raise (K : Kernel) (u1 u2 : Wire)
    (h1 : u1.vertexes ≠ []) (h2 : u2.vertexes ≠ []) :
    bindOpen K u1 u2 = (Except.ok none, [bindMsg]) ∨
      ∃ f, bindOpen K u1 u2 = (Except.ok (some f), []) := by
  cases hh1 : u1.vertexes.head? with
  | none => exact absurd (List.head?_eq_none_iff.mp hh1) h1
  | some a1 =>
  cases hh2 : u2.vertexes.head? with
  | none => exact absurd (List.head?_eq_none_iff.mp hh2) h2
  | some a2 =>
  cases hs1 : K.mkLineSegment a1.point a2.point with
  | none => exact Or.inl (by simp only [bindOpen, hh1, hh2, hs1])
  | some w3 =>
  cases hb1 : u1.vertexes.getLast? with
  | none => exact absurd (List.getLast?_eq_none_iff.mp hb1) h1
  | some b1 =>
  cases hb2 : u2.vertexes.getLast? with
  | none => exact absurd (List.getLast?_eq_none_iff.mp hb2) h2
  | some b2 =>
  cases hs2 : K.mkLineSegment b1.point b2.point with
  | none => exact Or.inl (by simp only [bindOpen, hh1, hh2, hs1, hb1, hb2, hs2])
  | some w4 =>
  cases hw : K.mkWire (u1.edges ++ [w3] ++ u2.edges ++ [w4]) with
  | none => exact Or.inl (by simp only [bindOpen, hh1, hh2, hs1, hb1, hb2, hs2, hw])
  | some w =>
  cases hf : K.mkFace w with
  | none => exact Or.inl (by simp only [bindOpen, hh1, hh2, hs1, hb1, hb2, hs2, hw, hf])
  | some f =>
    exact Or.inr ⟨f, by simp only [bindOpen, hh1, hh2, hs1, hb1, hb2, hs2, hw, hf]⟩

/-- Counterexample to C3 as stated: on a kernel whose two-closed-wires
face construction fails, `bind` of two closed wires propagates the
kernel exception instead of returning null. -/
theorem bind_propagates_counterexample :
    bind failK (some { edges := [⟨10⟩], vertexes := [], closed := true, diag := 2 })
        (some { edges := [⟨20⟩], vertexes := [], closed := true, diag := 1 }) =
      (Except.error PErr.occ, []) ∧
    (Except.error PErr.occ : Except PErr (Option Face)) ≠ Except.ok none := by
  exact ⟨rfl, fun h => Except.noConfusion h⟩

/-- C3 amended: `bind` returns null with a diagnostic, before touching
the kernel, when either wire is null/falsy; in the open-wire branch
(given each wire has a vertex) it never propagates an exception — every
kernel failure yields null plus the diagnostic, otherwise a face; but a
failure of the two-closed-wires `Part.Face([outer, inner])` construction
is not caught and propagates as an exception. -/
theorem bind_error_policy :
    (∀ (K : Kernel) (w2 : Option Wire), bind K none w2 = (Except.ok none, [bindMsg])) ∧
    (∀ (K : Kernel) (u1 : Wire), bind K (some u1) none = (Except.ok none, [bindMsg])) ∧
    (∀ (K : Kernel) (u1 u2 : Wire), (u1.closed && u2.closed) = false →
      u1.vertexes ≠ [] → u2.vertexes ≠ [] →
      (bind K (some u1) (some u2) = (Except.ok none, [bindMsg]) ∨
        ∃ f, bind K (some u1) (some u2) = (Except.ok (some f), []))) ∧
    (∀ (K : Kernel) (u1 u2 : Wire), u1.closed = true → u2.closed = true →
      K.mkFaceWires u1 u2 = none → K.mkFaceWires u2 u1 = none →
      (bind K (some u1) (some u2)).1 = Except.error PErr.occ) := by
  refine ⟨fun K w2 => rfl, fun K u1 => rfl, ?_, ?_⟩
  · intro K u1 u2 hcond h1 h2
    have hb : bind K (some u1) (some u2) = bindOpen K u1 u2 := by
      simp only [bind, hcond]
      rfl
    rw [hb]
    exact bindOpen_no_raise K u1 u2 h1 h2
  · intro K u1 u2 hc1 hc2 hm1 hm2
    simp only [bind, hc1, hc2, Bool.and_self, if_true]
    by_cases hd : u1.diag > u2.diag
    · simp [hd, hm1, occFace]
    · simp [hd, hm2, occFace]

/-- Witness for C3's amended theorem: a falsy wire, an open-branch
kernel failure, and a propagating closed-closed failure, all concrete. -/
theorem bind_error_policy_witness :
    bind sampleK none (some { edges := [⟨20⟩], vertexes := [], closed := true, diag := 1 }) =
        (Except.ok none, [bindMsg]) ∧
    (bind failK
        (some { edges := [⟨10⟩], vertexes := [⟨⟨0, 0, 0⟩⟩], closed := false, diag := 2 })
        (some { edges := [⟨20⟩], vertexes := [⟨⟨1, 0, 0⟩⟩], closed := true, diag := 1 }) =
          (Except.ok none, [bindMsg]) ∨
      ∃ f, bind failK
        (some { edges := [⟨10⟩], vertexes := [⟨⟨0, 0, 0⟩⟩], closed := false, diag := 2 })
        (some { edges := [⟨20⟩], vertexes := [⟨⟨1, 0, 0⟩⟩], closed := true, diag := 1 }) =
          (Except.ok (some f), [])) ∧
    (bind failK (some { edges := [⟨10⟩], vertexes := [], closed := true, diag := 2 })
        (some { edges := [⟨20⟩], vertexes := [], closed := true, diag := 1 })).1 =
      Except.error PErr.occ := by
  refine ⟨bind_error_policy.1 sampleK _, ?_, ?_⟩
  · exact bind_error_policy.2.2.1 failK _ _ rfl (by decide) (by decide)
  · exact bind_error_policy.2.2.2 failK _ _ rfl rfl rfl rfl

/-! ### C4: which wire becomes the outer boundary (corrected) -/

/-- Equal-diagonal wire A for the C4 counterexample. -/
def twA : Wire := { edges := [⟨10⟩], vertexes := [], closed := true, diag := 1 }

/-- Equal-diagonal wire B for the C4 counterexample. -/
def twB : Wire := { edges := [⟨20⟩], vertexes := [], closed := true, diag := 1 }

/-- The face `sampleK` builds when `twB` is the outer wire (the sample
kernel records the outer wire's first edge hash as the face hash). -/
def cfOuterB : Face :=
  { hc := 20, edges := twB.edges ++ twA.edges, vertexes := []
    normal00 := nZ, normal05 := nZ, valid := true }

/-- The face `sampleK` builds when `twA` is the outer wire. -/
def cfOuterA : Face :=
  { hc := 10, edges := twA.edges ++ twB.edges, vertexes := []
    normal00 := nZ, normal05 := nZ, valid := true }

/-- Counterexample to C4 as stated: on two closed wires with equal
bounding-box diagonals, swapping the arguments changes which wire is
passed first (outer) to `Part.Face` — observed through the sample kernel,
which records the outer wire's first edge hash in the face. -/
theorem bind_outer_swap_counterexample :
    sampleK.mkFaceWires twB twA = some cfOuterB ∧
    sampleK.mkFaceWires twA twB = some cfOuterA ∧
    bind sampleK (some twA) (some twB) = (Except.ok (some cfOuterB), []) ∧
    bind sampleK (some twB) (some twA) = (Except.ok (some cfOuterA), []) ∧
    cfOuterB ≠ cfOuterA := by
  refine ⟨rfl, rfl, rfl, rfl, ?_⟩
  intro h
  have hhc : cfOuterB.hc = cfOuterA.hc := congrArg Face.hc h
  exact absurd hhc (by decide)

/-- C4 amended: with two closed wires, `bind` is argument-order
independent exactly when the diagonals differ (the larger wire is outer
either way); on equal diagonals the branch `d1 > d2` fails in both
orders, so the second argument becomes the outer wire and swapping
changes the outer boundary. -/
theorem bind_outer_choice (K : Kernel) (u1 u2 : Wire)
    (hc1 : u1.closed = true) (hc2 : u2.closed = true) :
    (u1.diag ≠ u2.diag → bind K (some u1) (some u2) = bind K (some u2) (some u1)) ∧
    (u1.diag = u2.diag →
      bind K (some u1) (some u2) = (occFace (K.mkFaceWires u2 u1), []) ∧
      bind K (some u2) (some u1) = (occFace (K.mkFaceWires u1 u2), [])) := by
  constructor
  · intro hne
    rcases lt_trichotomy u1.diag u2.diag with hlt | heq | hgt
    · have h1 : ¬ u1.diag > u2.diag := not_lt_of_gt hlt
      have h2 : u2.diag > u1.diag := hlt
      simp [bind, hc1, hc2, h1, h2]
    · exact absurd heq hne
    · have h1 : u1.diag > u2.diag := hgt
      have h2 : ¬ u2.diag > u1.diag := not_lt_of_gt hgt
      simp [bind, hc1, hc2, h1, h2]
  · intro heq
    have h1 : ¬ u1.diag > u2.diag := by rw [heq]; exact lt_irrefl _
    have h2 : ¬ u2.diag > u1.diag := by rw [heq]; exact lt_irrefl _
    constructor
    · simp [bind, hc1, hc2, h1]
    · simp [bind, hc1, hc2, h2]

/-- Witness for C4's amended theorem: distinct diagonals give the same
result in both orders; equal diagonals give the two swapped calls. -/
theorem bind_outer_choice_witness :
    (bind sampleK (some { edges := [⟨10⟩], vertexes := [], closed := true, diag := 2 })
        (some twB) =
      bind sampleK (some twB)
        (some { edges := [⟨10⟩], vertexes := [], closed := true, diag := 2 })) ∧
    (bind sampleK (some twA) (some twB) = (occFace (sampleK.mkFaceWires twB twA), []) ∧
      bind sampleK (some twB) (some twA) = (occFace (sampleK.mkFaceWires twA twB), [])) := by
  constructor
  · exact (bind_outer_choice sampleK _ twB rfl rfl).1 (by decide)
  · exact (bind_outer_choice sampleK twA twB rfl rfl).2 rfl

/-! ### C6: `isCoplanar` -/

/-- Helper for C6: with the first face's vertex list nonempty, the inner
vertex scan returns `ok` of "no vertex deviates". -/
lemma coplanarVerts_eq (f0 : Face) (tol : ℚ) (v0 : Vertex) (vt : List Vertex)
    (h : f0.vertexes = v0 :: vt) (vs : List Vertex) :
    coplanarVerts f0 tol vs =
      Except.ok (!vs.any (fun v => deviates tol f0.normal00 (v.point.sub v0.point))) := by
  have hh : f0.vertexes.head? = some v0 := by rw [h]; rfl
  induction vs with
  | nil => rfl
  | cons v rest ih =>
    simp only [coplanarVerts, hh, List.any_cons]
    cases hd : deviates tol f0.normal00 (v.point.sub v0.point) with
    | true => simp
    | false => simpa using ih

/-- Helper for C6: the outer face scan returns `ok` of "no face has a
deviating vertex". -/
lemma coplanarScan_eq (f0 : Face) (tol : ℚ) (v0 : Vertex) (vt : List Vertex)
    (h : f0.vertexes = v0 :: vt) (fs : List Face) :
    coplanarScan f0 tol fs =
      Except.ok (!fs.any (fun f =>
        f.vertexes.any (fun v => deviates tol f0.normal00 (v.point.sub v0.point)))) := by
  induction fs with
  | nil => rfl
  | cons f rest ih =>
    simp only [coplanarScan, coplanarVerts_eq f0 tol v0 vt h, List.any_cons]
    cases hd : f.vertexes.any (fun v => deviates tol f0.normal00 (v.point.sub v0.point)) with
    | true => simp
    | false => simpa using ih

/-- C6: `isCoplanar` returns `true` for fewer than two faces without
touching any geometry; with at least two faces (and a vertex on the
first face, so that no `IndexError` occurs) it returns `false` exactly
when some vertex of a later face deviates — projected distance onto the
first face's normal at `(0, 0)`, rounded to the shared precision
constant, strictly exceeding the tolerance — and `true` exactly when no
vertex deviates. -/
theorem isCoplanar_spec (faces : List Face) (tol : ℚ) :
    (faces.length < 2 → isCoplanar faces tol = Except.ok true) ∧
    (∀ f0 rest v0 vt, faces = f0 :: rest → rest ≠ [] → f0.vertexes = v0 :: vt →
      ((isCoplanar faces tol = Except.ok false ↔
          ∃ f ∈ rest, ∃ v ∈ f.vertexes,
            deviates tol f0.normal00 (v.point.sub v0.point) = true) ∧
        (isCoplanar faces tol = Except.ok true ↔
          ¬ ∃ f ∈ rest, ∃ v ∈ f.vertexes,
            deviates tol f0.normal00 (v.point.sub v0.point) = true))) := by
  constructor
  · intro h
    unfold isCoplanar
    rw [if_pos h]
  · intro f0 rest v0 vt hf hne hv
    subst hf
    have hrl : rest.length ≠ 0 := fun h0 => hne (List.length_eq_zero.mp h0)
    have hlen : ¬ (f0 :: rest).length < 2 := by
      simp only [List.length_cons]
      omega
    have heq : isCoplanar (f0 :: rest) tol =
        Except.ok (!rest.any (fun f =>
          f.vertexes.any (fun v => deviates tol f0.normal00 (v.point.sub v0.point)))) := by
      unfold isCoplanar
      rw [if_neg hlen]
      exact coplanarScan_eq f0 tol v0 vt hv rest
    rw [heq]
    constructor
    · simp [List.any_eq_true]
    · simp [List.any_eq_true]

/-- Face with two vertexes in the `z = 0` plane, for the C6 witness. -/
def cfA : Face :=
  { hc := 201, edges := [], vertexes := [⟨⟨0, 0, 0⟩⟩, ⟨⟨1, 0, 0⟩⟩]
    normal00 := nZ, normal05 := nZ, valid := true }

/-- Face with a vertex two units off the `z = 0` plane, for the C6
witness. -/
def cfB : Face :=
  { hc := 202, edges := [], vertexes := [⟨⟨0, 0, 2⟩⟩]
    normal00 := nZ, normal05 := nZ, valid := true }

/-- Evaluation of the deviation test at the witness vertex: the chord
`(0, 0, 2)` projected on `(0, 0, 1)` has length 2, which rounded to 6
decimals is `2 > 0`. -/
lemma deviates_sample :
    deviates 0 nZ (Vec3.sub ⟨0, 0, 2⟩ ⟨0, 0, 0⟩) = true := by
  have hpl : projLen2 (Vec3.sub ⟨0, 0, 2⟩ ⟨0, 0, 0⟩) nZ = 4 := by
    norm_num [projLen2, Vec3.sub, Vec3.dot, nZ]
  have hS : (4 : ℚ) * (100 : ℚ) ^ precision = 4000000000000 := by
    norm_num [precision]
  have hfloor : ratFloorSqrt (4000000000000 : ℚ) = 2000000 := by
    unfold ratFloorSqrt
    have h : ⌊(4000000000000 : ℚ)⌋ = 4000000000000 := by norm_num
    rw [h]
    have h2 : Int.toNat 4000000000000 = 2000000 * 2000000 := rfl
    rw [h2, Nat.sqrt_eq]
  have hround : halfEvenSqrtRound (4000000000000 : ℚ) = 2000000 := by
    unfold halfEvenSqrtRound
    rw [hfloor]
    rw [if_pos (by push_cast; norm_num)]
  have hrd : roundDist 4 = 2 := by
    unfold roundDist
    rw [hS, hround]
    norm_num [precision]
  unfold deviates
  rw [hpl, hrd]
  norm_num

/-- Witness for C6: on the concrete pair `[cfA, cfB]` with tolerance 0,
the off-plane vertex of `cfB` makes `isCoplanar` return `false`. -/
theorem isCoplanar_spec_witness :
    isCoplanar [cfA, cfB] 0 = Except.ok false :=
  ((isCoplanar_spec [cfA, cfB] 0).2 cfA [cfB] ⟨⟨0, 0, 0⟩⟩ [⟨⟨1, 0, 0⟩⟩] rfl
      (fun h => List.noConfusion h) rfl).1.mpr
    ⟨cfB, List.mem_singleton.mpr rfl, ⟨⟨0, 0, 2⟩⟩, List.mem_singleton.mpr rfl,
      deviates_sample⟩

/-! ### C5: `getBoundary` keeps exactly the count-1 edges -/

/-- The adjacency count of edge-hash `k` over a group's per-face edge
lists (the specification-side count `getBoundary`'s table realises). -/
def edgeCount (faces : List Face) (k : Nat) : Nat :=
  (faces.flatMap Face.edges).countP (fun e => e.hc = k)

/-- One `countInsert` bumps exactly the requested key. -/
lemma tableGet_countInsert (t : List (Nat × Nat)) (k0 k : Nat) :
    tableGet (countInsert t k0) k =
      if k = k0 then some ((tableGet t k0).getD 0 + 1) else tableGet t k := by
  unfold countInsert tableGet
  by_cases hany : t.any (fun p => p.1 = k0) = true
  · rw [if_pos hany]
    rw [List.find?_map]
    have hcomp : ((fun p : Nat × Nat => decide (p.1 = k)) ∘
        (fun p : Nat × Nat => if p.1 = k0 then (p.1, p.2 + 1) else p)) =
        (fun p : Nat × Nat => decide (p.1 = k)) := by
      funext p
      by_cases hp : p.1 = k0 <;> simp [hp]
    rw [hcomp]
    by_cases hk : k = k0
    · subst hk
      obtain ⟨q, hq, hpq⟩ := List.any_eq_true.mp hany
      have hsome : (t.find? (fun p : Nat × Nat => p.1 = k)).isSome :=
        List.find?_isSome.mpr ⟨q, hq, hpq⟩
      obtain ⟨r, hr⟩ := Option.isSome_iff_exists.mp hsome
      have hrk : r.1 = k := by simpa using List.find?_some hr
      rw [hr, if_pos rfl]
      simp [hrk]
    · rw [if_neg hk]
      cases hr : t.find? (fun p : Nat × Nat => p.1 = k) with
      | none => rfl
      | some r =>
        have hrk : r.1 = k := by simpa using List.find?_some hr
        have hrne : ¬ r.1 = k0 := fun h => hk (hrk.symm.trans h)
        simp [hrne]
  · rw [if_neg hany]
    have hnone : t.find? (fun p : Nat × Nat => p.1 = k0) = none := by
      rw [List.find?_eq_none]
      intro p hp
      simp only [decide_eq_true_eq]
      intro hpk
      exact hany (List.any_eq_true.mpr ⟨p, hp, by simp [hpk]⟩)
    rw [List.find?_append]
    by_cases hk : k = k0
    · subst hk
      rw [hnone]
      simp
    · rw [if_neg hk]
      have h2 : List.find? (fun p : Nat × Nat => p.1 = k) [(k0, 1)] = none := by
        have hne : ¬ k0 = k := fun h => hk h.symm
        simp [hne]
      rw [h2]
      cases t.find? (fun p : Nat × Nat => p.1 = k) <;> rfl

/-- Folding a list of edges into the counting table adds exactly that
list's occurrence counts. -/
lemma tableGet_foldl (l : List Edge) (t : List (Nat × Nat)) (k : Nat) :
    tableGet (l.foldl (fun t e => countInsert t e.hc) t) k =
      if l.countP (fun e => e.hc = k) = 0 then tableGet t k
      else some ((tableGet t k).getD 0 + l.countP (fun e => e.hc = k)) := by
  induction l generalizing t with
  | nil => simp
  | cons e l ih =>
    rw [List.foldl_cons, ih]
    by_cases hek : e.hc = k
    · have hcnt : (e :: l).countP (fun d => d.hc = k) =
          l.countP (fun d => d.hc = k) + 1 := by
        rw [List.countP_cons]
        simp [hek]
      have ht' : tableGet (countInsert t e.hc) k = some ((tableGet t k).getD 0 + 1) := by
        rw [tableGet_countInsert, if_pos hek.symm, hek]
      rw [hcnt, ht']
      by_cases hc : l.countP (fun d => d.hc = k) = 0
      · rw [if_pos hc, if_neg (by omega), hc]
      · rw [if_neg hc, if_neg (by omega)]
        simp only [Option.getD_some]
        congr 1
        omega
    · have hcnt : (e :: l).countP (fun d => d.hc = k) = l.countP (fun d => d.hc = k) := by
        rw [List.countP_cons]
        simp [hek]
      have ht' : tableGet (countInsert t e.hc) k = tableGet t k := by
        rw [tableGet_countInsert, if_neg (fun h => hek h.symm)]
      rw [hcnt, ht']

/-- The inner and outer folds of `buildCountTable` flatten to one fold
over the concatenated per-face edge lists. -/
lemma buildCountTable_flat (faces : List Face) (t : List (Nat × Nat)) :
    faces.foldl (fun t f => f.edges.foldl (fun t e => countInsert t e.hc) t) t =
      (faces.flatMap Face.edges).foldl (fun t e => countInsert t e.hc) t := by
  induction faces generalizing t with
  | nil => rfl
  | cons f faces ih =>
    rw [List.foldl_cons, List.flatMap_cons, List.foldl_append, ih]

/-- The counting table realises `edgeCount` (with `none` for count 0). -/
lemma tableGet_buildCountTable (faces : List Face) (k : Nat) :
    tableGet (buildCountTable faces) k =
      if edgeCount faces k = 0 then none else some (edgeCount faces k) := by
  unfold buildCountTable edgeCount
  rw [buildCountTable_flat, tableGet_foldl]
  cases h : (faces.flatMap Face.edges).countP (fun e => e.hc = k) with
  | zero => rfl
  | succ n => simp [tableGet]

/-- A successful `boundStep` as a plain equation. -/
lemma boundStep_some (table : List (Nat × Nat)) (acc : List Edge) (e : Edge) (n : Nat)
    (h : tableGet table e.hc = some n) :
    boundStep table acc e = Except.ok (if n = 1 then acc ++ [e] else acc) := by
  unfold boundStep
  rw [h]

/-- The error-free run of `getBoundary`'s filtering fold. -/
lemma getBoundary_fold (table : List (Nat × Nat)) (es : List Edge) (acc : List Edge)
    (h : ∀ e ∈ es, tableGet table e.hc ≠ none) :
    (es.foldlM (boundStep table) acc : Except PErr (List Edge)) =
      Except.ok (acc ++ es.filter (fun e => tableGet table e.hc = some 1)) := by
  induction es generalizing acc with
  | nil =>
    simp only [List.foldlM_nil, List.filter_nil, List.append_nil]
    rfl
  | cons e es ih =>
    rw [List.foldlM_cons]
    cases hg : tableGet table e.hc with
    | none => exact absurd hg (h e (List.mem_cons_self e es))
    | some n =>
      have hrest : ∀ d ∈ es, tableGet table d.hc ≠ none :=
        fun d hd => h d (List.mem_cons_of_mem e hd)
      rw [boundStep_some table acc e n hg]
      by_cases hn : n = 1
      · subst hn
        rw [if_pos rfl]
        have hbind : ((Except.ok (acc ++ [e]) : Except PErr (List Edge)) >>=
            fun b => es.foldlM (boundStep table) b) =
            es.foldlM (boundStep table) (acc ++ [e]) := rfl
        rw [hbind, ih (acc ++ [e]) hrest, List.filter_cons]
        simp [hg, List.append_assoc]
      · rw [if_neg hn]
        have hbind : ((Except.ok acc : Except PErr (List Edge)) >>=
            fun b => es.foldlM (boundStep table) b) =
            es.foldlM (boundStep table) acc := rfl
        rw [hbind, ih acc hrest, List.filter_cons]
        have hne : ¬ (tableGet table e.hc = some 1) := by
          rw [hg]
          intro hcon
          exact hn (by injection hcon)
        simp [hne]

/-- In a face whose edge hash codes are pairwise distinct, each member
edge's hash occurs exactly once. -/
lemma countP_hc_eq_one {es : List Edge} (h : (es.map Edge.hc).Nodup) {e : Edge}
    (he : e ∈ es) : es.countP (fun d => d.hc = e.hc) = 1 := by
  induction es with
  | nil => cases he
  | cons a es ih =>
    rw [List.map_cons, List.nodup_cons] at h
    rcases List.mem_cons.mp he with rfl | hmem
    · rw [List.countP_cons]
      have hzero : es.countP (fun d => d.hc = e.hc) = 0 := by
        rw [List.countP_eq_zero]
        intro d hd
        simp only [decide_eq_true_eq]
        intro hde
        exact h.1 (hde ▸ List.mem_map_of_mem Edge.hc hd)
      simp [hzero]
    · rw [List.countP_cons]
      have hane : ¬ a.hc = e.hc := by
        intro hae
        exact h.1 (hae ▸ List.mem_map_of_mem Edge.hc hmem)
      simp [hane, ih h.2 hmem]

/-- C5: `getBoundary` returns exactly the edges of the group's
whole-shape edge list whose adjacency count over the group's per-face
edge lists is 1 (given every listed edge is owned by some face, so no
`KeyError` occurs); in particular the full edge set when nothing is
shared, and a single face's own edge list. -/
theorem getBoundary_spec :
    (∀ g : FaceGroup,
      (∀ e ∈ (groupShape g).edges, edgeCount (groupShape g).faces e.hc ≠ 0) →
      getBoundary g = Except.ok ((groupShape g).edges.filter
        (fun e => edgeCount (groupShape g).faces e.hc = 1))) ∧
    (∀ g : FaceGroup,
      (∀ e ∈ (groupShape g).edges, edgeCount (groupShape g).faces e.hc = 1) →
      getBoundary g = Except.ok (groupShape g).edges) ∧
    (∀ f : Face, (f.edges.map Edge.hc).Nodup →
      getBoundary (FaceGroup.ofShape f.asShape) = Except.ok f.edges) := by
  have main : ∀ g : FaceGroup,
      (∀ e ∈ (groupShape g).edges, edgeCount (groupShape g).faces e.hc ≠ 0) →
      getBoundary g = Except.ok ((groupShape g).edges.filter
        (fun e => edgeCount (groupShape g).faces e.hc = 1)) := by
    intro g hg
    unfold getBoundary
    rw [getBoundary_fold _ _ _ (fun e he => by
      rw [tableGet_buildCountTable]
      rw [if_neg (hg e he)]
      exact fun h => Option.noConfusion h)]
    rw [List.nil_append]
    congr 1
    apply List.filter_congr
    intro e he
    rw [tableGet_buildCountTable]
    rw [if_neg (hg e he)]
    by_cases h1 : edgeCount (groupShape g).faces e.hc = 1
    · simp [h1]
    · simp [h1]
  refine ⟨main, ?_, ?_⟩
  · intro g hg
    rw [main g (fun e he => by rw [hg e he]; exact one_ne_zero)]
    congr 1
    apply List.filter_eq_self.mpr
    intro e he
    simp [hg e he]
  · intro f hf
    have hone : ∀ e ∈ (groupShape (FaceGroup.ofShape f.asShape)).edges,
        edgeCount (groupShape (FaceGroup.ofShape f.asShape)).faces e.hc = 1 := by
      intro e he
      unfold edgeCount
      simp only [groupShape, Face.asShape] at he ⊢
      rw [List.flatMap_cons, List.flatMap_nil, List.append_nil]
      exact countP_hc_eq_one hf he
    rw [main (FaceGroup.ofShape f.asShape) (fun e he => by rw [hone e he]; exact one_ne_zero)]
    show Except.ok (f.edges.filter _) = _
    congr 1
    apply List.filter_eq_self.mpr
    intro e he
    simp [hone e he]

/-- Witness for C5: the sample two-square shape (count-1 edges are the
perimeter), the same shape under the no-sharing and single-face clauses
with a one-face shape. -/
theorem getBoundary_spec_witness :
    getBoundary (FaceGroup.ofShape sampleS) =
        Except.ok [⟨1⟩, ⟨2⟩, ⟨4⟩, ⟨5⟩, ⟨6⟩, ⟨7⟩] ∧
      getBoundary (FaceGroup.ofShape f1.asShape) = Except.ok f1.edges := by
  constructor
  · have h := getBoundary_spec.1 (FaceGroup.ofShape sampleS) (by decide)
    rw [h]
    rfl
  · exact getBoundary_spec.2.2 f1 (by decide)

/-! ### C9: target-edge selection in `cleanFaces` -/

/-- The faces of a face set owning an edge of hash `k` (the
specification-side owner list the lookup table realises). -/
def ownerFaces (faceset : List Face) (k : Nat) : List Face :=
  faceset.filter (fun f => f.edges.any (fun e => e.hc = k))

/-- One `lutInsert` appends the value exactly at the requested key. -/
lemma lutGet_lutInsert (lut : List (Nat × List Nat)) (k0 v k : Nat) :
    lutGet (lutInsert lut k0 v) k =
      if k = k0 then lutGet lut k0 ++ [v] else lutGet lut k := by
  unfold lutInsert lutGet
  by_cases hany : lut.any (fun p => p.1 = k0) = true
  · rw [if_pos hany, List.find?_map]
    have hcomp : ((fun p : Nat × List Nat => decide (p.1 = k)) ∘
        (fun p : Nat × List Nat => if p.1 = k0 then (p.1, p.2 ++ [v]) else p)) =
        (fun p : Nat × List Nat => decide (p.1 = k)) := by
      funext p
      by_cases hp : p.1 = k0 <;> simp [hp]
    rw [hcomp]
    by_cases hk : k = k0
    · subst hk
      obtain ⟨q, hq, hpq⟩ := List.any_eq_true.mp hany
      have hsome : (lut.find? (fun p : Nat × List Nat => p.1 = k)).isSome :=
        List.find?_isSome.mpr ⟨q, hq, hpq⟩
      obtain ⟨r, hr⟩ := Option.isSome_iff_exists.mp hsome
      have hrk : r.1 = k := by simpa using List.find?_some hr
      rw [hr, if_pos rfl]
      simp [hrk]
    · rw [if_neg hk]
      cases hr : lut.find? (fun p : Nat × List Nat => p.1 = k) with
      | none => rfl
      | some r =>
        have hrk : r.1 = k := by simpa using List.find?_some hr
        have hrne : ¬ r.1 = k0 := fun h => hk (hrk.symm.trans h)
        simp [hrne]
  · rw [if_neg hany]
    have hnone : lut.find? (fun p : Nat × List Nat => p.1 = k0) = none := by
      rw [List.find?_eq_none]
      intro p hp
      simp only [decide_eq_true_eq]
      intro hpk
      exact hany (List.any_eq_true.mpr ⟨p, hp, by simp [hpk]⟩)
    rw [List.find?_append]
    by_cases hk : k = k0
    · subst hk
      rw [hnone]
      simp
    · rw [if_neg hk]
      have h2 : List.find? (fun p : Nat × List Nat => p.1 = k) [(k0, [v])] = none := by
        have hne : ¬ k0 = k := fun h => hk h.symm
        simp [hne]
      rw [h2]
      cases lut.find? (fun p : Nat × List Nat => p.1 = k) <;> rfl

/-- Folding one face's edges into the lookup table appends that face's
hash once per occurrence of the key among its edges. -/
lemma lutGet_foldl_edges (es : List Edge) (lut : List (Nat × List Nat)) (v k : Nat) :
    lutGet (es.foldl (fun l e => lutInsert l e.hc v) lut) k =
      lutGet lut k ++ List.replicate (es.countP (fun e => e.hc = k)) v := by
  induction es generalizing lut with
  | nil => simp
  | cons e es ih =>
    rw [List.foldl_cons, ih, List.countP_cons]
    by_cases hek : e.hc = k
    · rw [lutGet_lutInsert, if_pos hek.symm, hek]
      simp [List.replicate_succ, List.append_assoc]
    · rw [lutGet_lutInsert, if_neg (fun h => hek h.symm)]
      simp [hek]

/-- The whole `buildLut` fold, over an arbitrary initial table. -/
lemma lutGet_buildLut_aux (faces : List Face) (lut : List (Nat × List Nat)) (k : Nat) :
    lutGet (faces.foldl
        (fun lut f => f.edges.foldl (fun l e => lutInsert l e.hc f.hc) lut) lut) k =
      lutGet lut k ++
        faces.flatMap (fun f =>
          List.replicate (f.edges.countP (fun e => e.hc = k)) f.hc) := by
  induction faces generalizing lut with
  | nil => simp
  | cons f faces ih =>
    rw [List.foldl_cons, ih, lutGet_foldl_edges, List.flatMap_cons, List.append_assoc]

/-- Under per-face edge-hash distinctness, the per-face replication
collapses to the owner-face list. -/
lemma replicate_flatMap_owners (faces : List Face) (k : Nat)
    (hen : ∀ f ∈ faces, (f.edges.map Edge.hc).Nodup) :
    faces.flatMap (fun f =>
        List.replicate (f.edges.countP (fun e => e.hc = k)) f.hc) =
      (ownerFaces faces k).map Face.hc := by
  induction faces with
  | nil => rfl
  | cons f faces ih =>
    rw [List.flatMap_cons]
    have ih' := ih (fun g hg => hen g (List.mem_cons_of_mem f hg))
    by_cases hf : f.edges.any (fun e => e.hc = k) = true
    · obtain ⟨e, he, hek⟩ := List.any_eq_true.mp hf
      have hek' : e.hc = k := by simpa using hek
      have h1 : f.edges.countP (fun d => d.hc = k) = 1 := by
        rw [← hek']
        exact countP_hc_eq_one (hen f (List.mem_cons_self f faces)) he
      rw [h1, ih']
      unfold ownerFaces
      rw [List.filter_cons, if_pos hf, List.map_cons]
      rfl
    · have h0 : f.edges.countP (fun d => d.hc = k) = 0 := by
        rw [List.countP_eq_zero]
        intro d hd
        simp only [decide_eq_true_eq]
        intro hdk
        exact hf (List.any_eq_true.mpr ⟨d, hd, by simp [hdk]⟩)
      rw [h0, ih']
      unfold ownerFaces
      rw [List.filter_cons, if_neg hf]
      rfl

/-- The lookup table of `cleanFaces` realises the owner-face list. -/
lemma lutGet_buildLut (faces : List Face) (k : Nat)
    (hen : ∀ f ∈ faces, (f.edges.map Edge.hc).Nodup) :
    lutGet (buildLut faces) k = (ownerFaces faces k).map Face.hc := by
  unfold buildLut
  rw [lutGet_buildLut_aux, replicate_flatMap_owners faces k hen]
  simp [lutGet]

/-- `lutInsert` preserves the key list up to appending a fresh key. -/
lemma lutInsert_keys (l : List (Nat × List Nat)) (k v : Nat) :
    (lutInsert l k v).map Prod.fst =
      if l.any (fun p => p.1 = k) = true then l.map Prod.fst
      else l.map Prod.fst ++ [k] := by
  unfold lutInsert
  by_cases h : l.any (fun p => p.1 = k) = true
  · rw [if_pos h, if_pos h, List.map_map]
    congr 1
    funext p
    by_cases hp : p.1 = k <;> simp [hp]
  · rw [if_neg h, if_neg h, List.map_append]
    rfl

/-- `lutInsert` preserves distinctness of the keys. -/
lemma lutInsert_keys_nodup (l : List (Nat × List Nat)) (k v : Nat)
    (h : (l.map Prod.fst).Nodup) : ((lutInsert l k v).map Prod.fst).Nodup := by
  rw [lutInsert_keys]
  by_cases hany : l.any (fun p => p.1 = k) = true
  · rw [if_pos hany]
    exact h
  · rw [if_neg hany]
    have hk : k ∉ l.map Prod.fst := by
      intro hmem
      obtain ⟨p, hp, hpk⟩ := List.mem_map.mp hmem
      exact hany (List.any_eq_true.mpr ⟨p, hp, by simp [hpk]⟩)
    rw [List.nodup_append]
    refine ⟨h, List.nodup_singleton k, ?_⟩
    intro a ha hamem
    rw [List.mem_singleton] at hamem
    exact hk (hamem ▸ ha)

/-- The keys of `buildLut` are pairwise distinct (it is a dictionary). -/
lemma buildLut_keys_nodup (faces : List Face) :
    ((buildLut faces).map Prod.fst).Nodup := by
  suffices h : ∀ (fs : List Face) (lut : List (Nat × List Nat)),
      (lut.map Prod.fst).Nodup →
      ((fs.foldl
          (fun lut f => f.edges.foldl (fun l e => lutInsert l e.hc f.hc) lut)
          lut).map Prod.fst).Nodup by
    exact h faces [] (by simp)
  intro fs
  induction fs with
  | nil => exact fun lut h => h
  | cons f fs ih =>
    intro lut h
    rw [List.foldl_cons]
    apply ih
    have hinner : ∀ (es : List Edge) (lut : List (Nat × List Nat)),
        (lut.map Prod.fst).Nodup →
        ((es.foldl (fun l e => lutInsert l e.hc f.hc) lut).map Prod.fst).Nodup := by
      intro es
      induction es with
      | nil => exact fun lut h => h
      | cons e es ihe =>
        intro lut h
        rw [List.foldl_cons]
        exact ihe _ (lutInsert_keys_nodup _ _ _ h)
    exact hinner f.edges lut h

/-- With distinct keys, membership of an entry determines the lookup. -/
lemma lutGet_of_mem (lut : List (Nat × List Nat)) (hnd : (lut.map Prod.fst).Nodup)
    {k : Nat} {vs : List Nat} (hmem : (k, vs) ∈ lut) : lutGet lut k = vs := by
  induction lut with
  | nil => cases hmem
  | cons p rest ih =>
    rw [List.map_cons, List.nodup_cons] at hnd
    rcases List.mem_cons.mp hmem with heq | hmem'
    · rw [← heq]
      simp [lutGet]
    · have hkne : ¬ p.1 = k := by
        intro hpk
        apply hnd.1
        rw [hpk]
        exact List.mem_map.mpr ⟨(k, vs), hmem', rfl⟩
      have hstep : lutGet (p :: rest) k = lutGet rest k := by
        unfold lutGet
        rw [List.find?_cons_of_neg _ (by simpa using hkne)]
      rw [hstep]
      exact ih hnd.2 hmem'

/-- Membership in the shared-edge list is exactly "owner list of length
two" (given the table's keys are distinct). -/
lemma mem_sharedHEdges (lut : List (Nat × List Nat))
    (hnd : (lut.map Prod.fst).Nodup) (k : Nat) :
    k ∈ sharedHEdges lut ↔ (lutGet lut k).length = 2 := by
  unfold sharedHEdges
  constructor
  · intro hk
    obtain ⟨p, hp, hpk⟩ := List.mem_map.mp hk
    have hpf := List.mem_filter.mp hp
    have hlen : p.2.length = 2 := by simpa using hpf.2
    have hget : lutGet lut p.1 = p.2 := lutGet_of_mem lut hnd hpf.1
    rw [← hpk, hget]
    exact hlen
  · intro hlen
    cases hf : lut.find? (fun p : Nat × List Nat => p.1 = k) with
    | none =>
      unfold lutGet at hlen
      rw [hf] at hlen
      simp at hlen
    | some p =>
      have hpk : p.1 = k := by simpa using List.find?_some hf
      have hpm : p ∈ lut := List.mem_of_find?_eq_some hf
      have hlen' : p.2.length = 2 := by
        unfold lutGet at hlen
        rw [hf] at hlen
        simpa using hlen
      exact List.mem_map.mpr ⟨p, List.mem_filter.mpr ⟨hpm, by simpa using hlen'⟩, hpk⟩

/-- With distinct face hashes, `find` recovers a member face. -/
lemma findFace_of_mem (faceset : List Face) (hfn : (faceset.map Face.hc).Nodup)
    {f : Face} (hf : f ∈ faceset) : findFace faceset f.hc = some f := by
  induction faceset with
  | nil => cases hf
  | cons g rest ih =>
    rw [List.map_cons, List.nodup_cons] at hfn
    rcases List.mem_cons.mp hf with rfl | hmem
    · simp [findFace]
    · have hne : ¬ g.hc = f.hc := by
        intro h
        apply hfn.1
        rw [h]
        exact List.mem_map.mpr ⟨f, hmem, rfl⟩
      unfold findFace
      rw [List.find?_cons_of_neg _ (by simpa using hne)]
      exact ih hfn.2 hmem

/-- C9: under the kernel identity contract (distinct face hashes,
per-face deduplicated edge lists), an edge hash is selected as a target
edge iff its owner list is exactly two faces whose normals at
`(0.5, 0.5)` are (exactly) equal; edges with one owner or three or more
owners are never selected. -/
theorem targetHEdges_spec (faceset : List Face)
    (hfn : (faceset.map Face.hc).Nodup)
    (hen : ∀ f ∈ faceset, (f.edges.map Edge.hc).Nodup) (k : Nat) :
    k ∈ targetHEdges faceset (buildLut faceset) ↔
      ∃ f g, ownerFaces faceset k = [f, g] ∧ f.normal05 = g.normal05 := by
  have hnd := buildLut_keys_nodup faceset
  have hlg := lutGet_buildLut faceset k hen
  unfold targetHEdges
  rw [List.mem_filter]
  constructor
  · rintro ⟨hsh, hpred⟩
    have hlen : (lutGet (buildLut faceset) k).length = 2 :=
      (mem_sharedHEdges _ hnd k).mp hsh
    rw [hlg] at hlen
    cases hof : ownerFaces faceset k with
    | nil => rw [hof] at hlen; simp at hlen
    | cons f rest =>
      cases rest with
      | nil => rw [hof] at hlen; simp at hlen
      | cons g rest2 =>
        cases rest2 with
        | cons h rest3 => rw [hof] at hlen; simp at hlen
        | nil =>
          refine ⟨f, g, rfl, ?_⟩
          have hfmem : f ∈ ownerFaces faceset k := by rw [hof]; simp
          have hgmem : g ∈ ownerFaces faceset k := by rw [hof]; simp
          have hff := findFace_of_mem faceset hfn (List.mem_filter.mp hfmem).1
          have hgg := findFace_of_mem faceset hfn (List.mem_filter.mp hgmem).1
          have hl2 : lutGet (buildLut faceset) k = [f.hc, g.hc] := by
            rw [hlg, hof]
            rfl
          unfold targetPred at hpred
          simp only [hl2, hff, hgg] at hpred
          simpa using hpred
  · rintro ⟨f, g, hof, hnorm⟩
    have hl2 : lutGet (buildLut faceset) k = [f.hc, g.hc] := by
      rw [hlg, hof]
      rfl
    have hfmem : f ∈ ownerFaces faceset k := by rw [hof]; simp
    have hgmem : g ∈ ownerFaces faceset k := by rw [hof]; simp
    have hff := findFace_of_mem faceset hfn (List.mem_filter.mp hfmem).1
    have hgg := findFace_of_mem faceset hfn (List.mem_filter.mp hgmem).1
    refine ⟨(mem_sharedHEdges _ hnd k).mpr (by rw [hl2]; rfl), ?_⟩
    unfold targetPred
    simp only [hl2, hff, hgg]
    simpa using hnorm

/-- Witness for C9: on the two-square sample, edge 3 is a target (its
two owners `f1, f2` have equal normals), verified through the theorem. -/
theorem targetHEdges_spec_witness :
    ((sampleS.faces.map Face.hc).Nodup ∧
        ∀ f ∈ sampleS.faces, (f.edges.map Edge.hc).Nodup) ∧
      3 ∈ targetHEdges sampleS.faces (buildLut sampleS.faces) :=
  ⟨⟨by decide, by decide⟩,
    (targetHEdges_spec sampleS.faces (by decide) (by decide) 3).mpr
      ⟨f1, f2, rfl, rfl⟩⟩

/-! ### C10: the clustering loop terminates and partitions the targets -/

/-- Popping the element at a valid index is a permutation move. -/
lemma cons_eraseIdx_perm {l : List Nat} {i x : Nat} (h : l[i]? = some x) :
    List.Perm (x :: l.eraseIdx i) l := by
  have hi : i < l.length := by
    by_contra hni
    rw [List.getElem?_eq_none (le_of_not_lt hni)] at h
    exact Option.noConfusion h
  have hx : l[i] = x := by
    rw [List.getElem?_eq_getElem hi] at h
    injection h
  rw [List.eraseIdx_eq_take_drop_succ]
  have hl : l = List.take i l ++ x :: List.drop (i + 1) l := by
    conv_lhs => rw [← List.take_append_drop i l]
    congr 1
    rw [List.drop_eq_getElem_cons hi, hx]
  conv_rhs => rw [hl]
  exact List.perm_middle.symm

/-- Whatever islands a successful loop run returns, their concatenation
is a permutation of the faces held in the state (previous islands,
current island, remaining worklist): every pop moves one worklist
element into an island. -/
lemma islLoop_flatten_perm (faceset : List Face) :
    ∀ (fuel : Nat) (st : IslState) (res : List (List Nat)),
      islLoop faceset fuel st = Except.ok res →
      List.Perm res.flatten (st.prev.flatten ++ st.cur ++ st.hfaces) := by
  intro fuel
  induction fuel with
  | zero =>
    intro st res h
    unfold islLoop at h
    by_cases he : st.hfaces.isEmpty = true
    · rw [if_pos he] at h
      have hres : res = st.prev ++ [st.cur] := by injection h with h'; exact h'.symm
      rw [hres, List.flatten_append, List.isEmpty_iff.mp he]
      simp
    · rw [if_neg he] at h
      exact Except.noConfusion h
  | succ fuel ih =>
    intro st res h
    unfold islLoop at h
    by_cases he : st.hfaces.isEmpty = true
    · rw [if_pos he] at h
      have hres : res = st.prev ++ [st.cur] := by injection h with h'; exact h'.symm
      rw [hres, List.flatten_append, List.isEmpty_iff.mp he]
      simp
    · rw [if_neg he] at h
      by_cases hfound : st.found = true
      · rw [if_pos hfound] at h
        cases hcur : st.cur[st.curface]? with
        | none =>
          simp only [hcur] at h
          exact Except.noConfusion h
        | some hf' =>
          simp only [hcur] at h
          cases hfn : findNeighbour faceset hf' st.hfaces with
          | error e =>
            simp only [hfn] at h
            exact Except.noConfusion h
          | ok o =>
            cases o with
            | some i =>
              simp only [hfn] at h
              cases hx : st.hfaces[i]? with
              | none =>
                simp only [hx] at h
                exact Except.noConfusion h
              | some x =>
                simp only [hx] at h
                have hperm := ih _ _ h
                refine hperm.trans ?_
                have hre : st.prev.flatten ++ (st.cur ++ [x]) ++ st.hfaces.eraseIdx i =
                    (st.prev.flatten ++ st.cur) ++ (x :: st.hfaces.eraseIdx i) := by
                  simp [List.append_assoc]
                rw [hre]
                exact (cons_eraseIdx_perm hx).append_left (st.prev.flatten ++ st.cur)
            | none =>
              simp only [hfn] at h
              simpa using ih _ _ h
      · rw [if_neg hfound] at h
        by_cases hadv : st.cur.length > st.curface + 1
        · rw [if_pos hadv] at h
          simpa using ih _ _ h
        · rw [if_neg hadv] at h
          cases hhf : st.hfaces with
          | nil =>
            simp only [hhf] at h
            exact Except.noConfusion h
          | cons hh ht =>
            simp only [hhf] at h
            have hperm := ih _ _ h
            refine hperm.trans (List.Perm.of_eq ?_)
            simp [List.flatten_append, List.append_assoc]

/-- `findNeighbourAux` cannot raise when every listed face hash resolves,
and a returned index is in range. -/
lemma findNeighbourAux_ok (faceset : List Face) (eset : List Nat) :
    ∀ (l : List Nat) (i : Nat), (∀ h ∈ l, (findFace faceset h).isSome) →
      ∃ o, findNeighbourAux faceset eset l i = Except.ok o ∧
        ∀ j, o = some j → i ≤ j ∧ j - i < l.length := by
  intro l
  induction l with
  | nil =>
    intro i _
    exact ⟨none, rfl, fun j hj => Option.noConfusion hj⟩
  | cons hf rest ih =>
    intro i h
    obtain ⟨g, hg⟩ := Option.isSome_iff_exists.mp (h hf (List.mem_cons_self _ _))
    unfold findNeighbourAux
    simp only [hg]
    by_cases hany : g.edges.any (fun e => e.hc ∈ eset) = true
    · rw [if_pos hany]
      refine ⟨some i, rfl, fun j hj => ?_⟩
      have hij : j = i := by injection hj with h'; exact h'.symm
      subst hij
      simp
    · rw [if_neg hany]
      obtain ⟨o, ho, hbound⟩ := ih (i + 1) (fun x hx => h x (List.mem_cons_of_mem _ hx))
      refine ⟨o, ho, fun j hj => ?_⟩
      obtain ⟨h1, h2⟩ := hbound j hj
      rw [List.length_cons]
      omega

/-- `findNeighbour` cannot raise when all hashes involved resolve, and a
returned index is a valid worklist position. -/
lemma findNeighbour_ok (faceset : List Face) (hface : Nat) (l : List Nat)
    (hh : (findFace faceset hface).isSome)
    (hl : ∀ h ∈ l, (findFace faceset h).isSome) :
    ∃ o, findNeighbour faceset hface l = Except.ok o ∧
      ∀ j, o = some j → j < l.length := by
  obtain ⟨f, hf⟩ := Option.isSome_iff_exists.mp hh
  unfold findNeighbour
  rw [hf]
  obtain ⟨o, ho, hb⟩ := findNeighbourAux_ok faceset (f.edges.map Edge.hc) l 0 hl
  refine ⟨o, ho, fun j hj => ?_⟩
  have := (hb j hj).2
  omega

/-- The loop, started with fuel at least its measure, runs to a normal
exit: the fuel bound and every in-loop indexing and `find` succeed. -/
lemma islLoop_ok (faceset : List Face) :
    ∀ (fuel : Nat) (st : IslState),
      islMeasure st ≤ fuel →
      st.curface < st.cur.length →
      (∀ h, h ∈ st.cur ∨ h ∈ st.hfaces → (findFace faceset h).isSome) →
      ∃ res, islLoop faceset fuel st = Except.ok res := by
  intro fuel
  induction fuel with
  | zero =>
    intro st hm _ _
    unfold islLoop
    by_cases he : st.hfaces.isEmpty = true
    · rw [if_pos he]
      exact ⟨_, rfl⟩
    · exfalso
      have hne : st.hfaces ≠ [] := fun h0 => he (by simp [h0])
      have hlen : 0 < st.hfaces.length := List.length_pos.mpr hne
      unfold islMeasure at hm
      omega
  | succ fuel ih =>
    intro st hm hinv hpres
    unfold islLoop
    by_cases he : st.hfaces.isEmpty = true
    · rw [if_pos he]
      exact ⟨_, rfl⟩
    · rw [if_neg he]
      have hne : st.hfaces ≠ [] := fun h0 => he (by simp [h0])
      have hlen : 0 < st.hfaces.length := List.length_pos.mpr hne
      by_cases hfound : st.found = true
      · rw [if_pos hfound]
        simp only [List.getElem?_eq_getElem hinv]
        have hcm : st.cur[st.curface] ∈ st.cur := List.getElem_mem hinv
        obtain ⟨o, ho, hb⟩ := findNeighbour_ok faceset (st.cur[st.curface]) st.hfaces
          (hpres _ (Or.inl hcm)) (fun x hx => hpres x (Or.inr hx))
        rw [ho]
        cases o with
        | some i =>
          have hi : i < st.hfaces.length := hb i rfl
          simp only [List.getElem?_eq_getElem hi]
          apply ih
          · simp only [islMeasure, hfound, eq_self_iff_true, if_true, List.length_append,
              List.length_cons, List.length_nil, List.length_eraseIdx, if_pos hi] at hm ⊢
            omega
          · simp only [List.length_append, List.length_cons, List.length_nil]
            omega
          · intro h hmem
            rcases hmem with hc | hhx
            · rcases List.mem_append.mp hc with h1 | h2
              · exact hpres h (Or.inl h1)
              · rw [List.mem_singleton] at h2
                subst h2
                exact hpres _ (Or.inr (List.getElem_mem hi))
            · exact hpres h (Or.inr ((List.eraseIdx_sublist st.hfaces i).mem hhx))
        | none =>
          apply ih
          · simp only [islMeasure, hfound, eq_self_iff_true, if_true] at hm ⊢
            simp only [Bool.false_eq_true, if_false]
            omega
          · exact hinv
          · exact hpres
      · rw [if_neg hfound]
        have hffalse : st.found = false := by
          cases hsf : st.found
          · rfl
          · exact absurd hsf hfound
        by_cases hadv : st.cur.length > st.curface + 1
        · rw [if_pos hadv]
          apply ih
          · simp only [islMeasure, hffalse, eq_self_iff_true, if_true] at hm ⊢
            simp only [Bool.false_eq_true, if_false] at hm
            omega
          · exact hadv
          · exact hpres
        · rw [if_neg hadv]
          cases hhf : st.hfaces with
          | nil => exact absurd hhf hne
          | cons hh ht =>
            apply ih
            · simp only [islMeasure, hffalse, eq_self_iff_true, if_true,
                List.length_cons, List.length_nil] at hm ⊢
              simp only [Bool.false_eq_true, if_false] at hm
              rw [hhf, List.length_cons] at hm
              omega
            · simp
            · intro h hmem
              rcases hmem with hc | hht
              · rw [List.mem_singleton] at hc
                rw [hc]
                exact hpres hh (Or.inr (hhf ▸ List.mem_cons_self hh ht))
              · exact hpres h (Or.inr (hhf ▸ List.mem_cons_of_mem hh hht))

/-- Every member of the target-face worklist is a value of the lookup
table. -/
lemma targetHFaces_mem (lut : List (Nat × List Nat)) (target : List Nat) :
    ∀ x ∈ targetHFaces lut target, ∃ he ∈ target, x ∈ lutGet lut he := by
  unfold targetHFaces
  suffices h : ∀ (tgt : List Nat) (acc : List Nat),
      ∀ x ∈ tgt.foldl
        (fun hfaces he =>
          (lutGet lut he).foldl (fun hf f => if f ∈ hf then hf else hf ++ [f]) hfaces)
        acc,
      x ∈ acc ∨ ∃ he ∈ tgt, x ∈ lutGet lut he by
    intro x hx
    rcases h target [] x hx with h1 | h2
    · cases h1
    · exact h2
  intro tgt
  induction tgt with
  | nil => exact fun acc x hx => Or.inl hx
  | cons he tgt ih =>
    intro acc x hx
    rw [List.foldl_cons] at hx
    have hinner : ∀ (vs : List Nat) (acc : List Nat),
        ∀ x ∈ vs.foldl (fun hf f => if f ∈ hf then hf else hf ++ [f]) acc,
        x ∈ acc ∨ x ∈ vs := by
      intro vs
      induction vs with
      | nil => exact fun acc x hx => Or.inl hx
      | cons v vs ihv =>
        intro acc x hx
        rw [List.foldl_cons] at hx
        rcases ihv _ x hx with ha | hv
        · by_cases hvm : v ∈ acc
          · rw [if_pos hvm] at ha
            exact Or.inl ha
          · rw [if_neg hvm] at ha
            rcases List.mem_append.mp ha with h1 | h2
            · exact Or.inl h1
            · rw [List.mem_singleton] at h2
              exact Or.inr (h2 ▸ List.mem_cons_self v vs)
        · exact Or.inr (List.mem_cons_of_mem v hv)
    rcases ih _ x hx with h1 | h2
    · rcases hinner (lutGet lut he) acc x h1 with ha | hv
      · exact Or.inl ha
      · exact Or.inr ⟨he, List.mem_cons_self _ _, hv⟩
    · obtain ⟨he', hm, hx'⟩ := h2
      exact Or.inr ⟨he', List.mem_cons_of_mem _ hm, hx'⟩

/-- The target-face worklist is duplicate-free (`if f not in hfaces`). -/
lemma targetHFaces_nodup (lut : List (Nat × List Nat)) (target : List Nat) :
    (targetHFaces lut target).Nodup := by
  unfold targetHFaces
  suffices h : ∀ (tgt : List Nat) (acc : List Nat), acc.Nodup →
      (tgt.foldl
        (fun hfaces he =>
          (lutGet lut he).foldl (fun hf f => if f ∈ hf then hf else hf ++ [f]) hfaces)
        acc).Nodup by
    exact h target [] List.nodup_nil
  have hinner : ∀ (vs : List Nat) (acc : List Nat), acc.Nodup →
      (vs.foldl (fun hf f => if f ∈ hf then hf else hf ++ [f]) acc).Nodup := by
    intro vs
    induction vs with
    | nil => exact fun acc h => h
    | cons v vs ihv =>
      intro acc h
      rw [List.foldl_cons]
      apply ihv
      by_cases hvm : v ∈ acc
      · rw [if_pos hvm]
        exact h
      · rw [if_neg hvm]
        rw [List.nodup_append]
        refine ⟨h, List.nodup_singleton v, ?_⟩
        intro a ha hamem
        rw [List.mem_singleton] at hamem
        exact hvm (hamem ▸ ha)
  intro tgt
  induction tgt with
  | nil => exact fun acc h => h
  | cons he tgt ih =>
    intro acc h
    rw [List.foldl_cons]
    exact ih _ (hinner (lutGet lut he) acc h)

/-- The values of the lookup table are face hashes of the face set. -/
lemma lutGet_values_sub (faceset : List Face) (k : Nat) :
    ∀ x ∈ lutGet (buildLut faceset) k, ∃ f ∈ faceset, f.hc = x := by
  intro x hx
  unfold buildLut at hx
  rw [lutGet_buildLut_aux] at hx
  have hnil : lutGet [] k = [] := rfl
  rw [hnil, List.nil_append] at hx
  obtain ⟨f, hf, hrep⟩ := List.mem_flatMap.mp hx
  exact ⟨f, hf, (List.eq_of_mem_replicate hrep).symm⟩

/-- C10: for every shape with a non-empty target-face worklist, the
island-sorting loop terminates with a result, and the islands form a
partition of the worklist: their concatenation is a permutation of it
(so every target face key lies in exactly one island and nothing else
does), it is duplicate-free, and distinct islands are disjoint. -/
theorem sortIslands_partition (shape : Shape)
    (hne : targetHFaces (buildLut shape.faces)
      (targetHEdges shape.faces (buildLut shape.faces)) ≠ []) :
    ∃ islands,
      sortIslands shape.faces
          (targetHFaces (buildLut shape.faces)
            (targetHEdges shape.faces (buildLut shape.faces))) =
        Except.ok islands ∧
      List.Perm islands.flatten
        (targetHFaces (buildLut shape.faces)
          (targetHEdges shape.faces (buildLut shape.faces))) ∧
      islands.flatten.Nodup ∧
      List.Pairwise List.Disjoint islands := by
  set lut := buildLut shape.faces with hlut
  set hfaces := targetHFaces lut (targetHEdges shape.faces lut) with hhfdef
  have hpres : ∀ h ∈ hfaces, (findFace shape.faces h).isSome := by
    intro h hmem
    obtain ⟨he, _, hval⟩ := targetHFaces_mem lut _ h hmem
    obtain ⟨f, hf, hfc⟩ := lutGet_values_sub shape.faces he h hval
    exact List.find?_isSome.mpr ⟨f, hf, by simp [hfc]⟩
  have hnd : hfaces.Nodup := targetHFaces_nodup lut _
  obtain ⟨hh, ht, hhf⟩ := List.exists_cons_of_ne_nil hne
  obtain ⟨res, hok⟩ := islLoop_ok shape.faces
    (islMeasure ⟨[], [hh], 0, true, ht⟩) ⟨[], [hh], 0, true, ht⟩
    (le_refl _) (by simp)
    (by
      intro h hmem
      rcases hmem with hc | hht
      · rw [List.mem_singleton] at hc
        rw [hc]
        exact hpres hh (hhf ▸ List.mem_cons_self hh ht)
      · exact hpres h (hhf ▸ List.mem_cons_of_mem hh hht))
  have hsort : sortIslands shape.faces hfaces = Except.ok res := by
    rw [hhf]
    unfold sortIslands
    exact hok
  have hperm : List.Perm res.flatten hfaces := by
    have h1 := islLoop_flatten_perm shape.faces _ _ _ hok
    rw [hhf]
    simpa using h1
  refine ⟨res, hsort, hperm, ?_, ?_⟩
  · exact hperm.nodup_iff.mpr hnd
  · exact (List.nodup_flatten.mp (hperm.nodup_iff.mpr hnd)).2

/-- Witness for C10: the two-square sample has worklist `[101, 102]`,
and the theorem yields its island partition. -/
theorem sortIslands_partition_witness :
    targetHFaces (buildLut sampleS.faces)
        (targetHEdges sampleS.faces (buildLut sampleS.faces)) ≠ [] ∧
      ∃ islands,
        sortIslands sampleS.faces
            (targetHFaces (buildLut sampleS.faces)
              (targetHEdges sampleS.faces (buildLut sampleS.faces))) =
          Except.ok islands ∧
        List.Perm islands.flatten
          (targetHFaces (buildLut sampleS.faces)
            (targetHEdges sampleS.faces (buildLut sampleS.faces))) ∧
        islands.flatten.Nodup ∧
        List.Pairwise List.Disjoint islands :=
  ⟨by decide, sortIslands_partition sampleS (by decide)⟩

/-! ### C1: re-running `cleanFaces` on its own output (corrected) -/

/-- Counterexample to C1 as stated: `cleanFaces` succeeds on the
two-square sample, merging it into a single face, but re-running
`cleanFaces` on that output is not a no-op — the output has no target
edges, so the second run raises `IndexError` instead of returning the
same faces. -/
theorem cleanFaces_idempotent_counterexample :
    cleanFaces sampleK sampleS = Except.ok sampleMerged ∧
      cleanFaces sampleK sampleMerged = Except.error PErr.index ∧
      (Except.error PErr.index : Except PErr Shape) ≠ Except.ok sampleMerged := by
  refine ⟨rfl, rfl, ?_⟩
  intro h
  exact Except.noConfusion h

/-- C1 amended: for every shape on which `cleanFaces` succeeds, whenever
its output contains no internal edge shared by exactly two faces with
equal normals at `(0.5, 0.5)` (so there is nothing left to merge),
re-running `cleanFaces` on the output is not a no-op: it raises an index
error by popping from the empty target-face list, and in particular
never returns the same faces. -/
theorem cleanFaces_rerun_not_noop (K : Kernel) (S S' : Shape)
    (_h1 : cleanFaces K S = Except.ok S')
    (h2 : targetHEdges S'.faces (buildLut S'.faces) = []) :
    cleanFaces K S' = Except.error PErr.index ∧
      ∀ T : Shape, cleanFaces K S' ≠ Except.ok T := by
  refine ⟨cleanFaces_no_target K S' h2, ?_⟩
  intro T hT
  rw [cleanFaces_no_target K S' h2] at hT
  exact Except.noConfusion hT

/-- Witness for C1's amended theorem at the two-square sample. -/
theorem cleanFaces_rerun_not_noop_witness :
    cleanFaces sampleK sampleS = Except.ok sampleMerged ∧
      targetHEdges sampleMerged.faces (buildLut sampleMerged.faces) = [] ∧
      cleanFaces sampleK sampleMerged = Except.error PErr.index :=
  ⟨rfl, rfl, (cleanFaces_rerun_not_noop sampleK sampleS sampleMerged rfl rfl).1⟩

end DraftFaces
